import Mathlib

/-!
Verification of the scan-and-clean orchestration engine of the rs_clean
repository (src/lib.rs, src/cmd.rs, src/constant.rs) against its
natural-language specification.

The filesystem is modelled as a finite tree of named entries.  Directory
contents are the ordered list produced by the OS directory iteration, so
every loop of the source that iterates over `read_dir` results becomes a
structural recursion over that list.  Machine integers (`u64` sizes,
`usize` counters) are modelled as `Nat`: the source only adds and
saturating-subtracts, so no overflow wrapping is observable.
-/

/-- A filesystem entry: a regular file with a byte size, or a directory
with its list of child entries (in directory-iteration order). -/
inductive FsEntry where
  | file (name : String) (size : Nat)
  | dir (name : String) (entries : List FsEntry)

/-- Name of a filesystem entry (the final path component). -/
def FsEntry.name : FsEntry → String
  | .file n _ => n
  | .dir n _ => n

mutual
/-- True total byte size of all regular files in the subtree, with no
depth or file-count ceiling.  This is the mathematical reference value
that `get_dir_size_async` approximates from below. -/
def totalSize : FsEntry → Nat
  | .file _ sz => sz
  | .dir _ es => totalSizeList es

/-- Sum of `totalSize` over a list of entries. -/
def totalSizeList : List FsEntry → Nat
  | [] => 0
  | e :: es => totalSize e + totalSizeList es
end

mutual
/-- Number of entries in the subtree (used as a termination measure for
the breadth-first size walk). -/
def entryCount : FsEntry → Nat
  | .file _ _ => 1
  | .dir _ es => 1 + entryCountList es

/-- Sum of `entryCount` over a list of entries. -/
def entryCountList : List FsEntry → Nat
  | [] => 0
  | e :: es => entryCount e + entryCountList es
end

/-- Model of `fs::read_dir`: succeeds with the child list on a directory,
fails on a regular file (the source skips the entry on failure). -/
def readEntries : FsEntry → Option (List FsEntry)
  | .file _ _ => none
  | .dir _ es => some es

/-- Result of the inner `while let Ok(Some(entry))` loop of
`get_dir_size_async` (src/lib.rs lines 40-56) over one directory's
entries: either the file-count ceiling was exceeded and the function
returns the partial total (`early`), or the loop finishes with the
subdirectories pushed to the work queue and the updated counters. -/
inductive VisitResult where
  | early (total : Nat)
  | cont (dirs : List FsEntry) (fileCount : Nat) (total : Nat)

/-- Inner entry loop of `get_dir_size_async` (src/lib.rs lines 40-56).
For each entry: if `file_count > maxFiles` the whole function returns
`total` immediately; a file adds its length to `total` and bumps
`file_count`; a directory is queued for a later iteration. -/
def visitEntries (maxFiles : Nat) : List FsEntry → Nat → Nat → VisitResult
  | [], fileCount, total => .cont [] fileCount total
  | e :: rest, fileCount, total =>
    if fileCount > maxFiles then .early total
    else
      match e with
      | .file _ sz => visitEntries maxFiles rest (fileCount + 1) (total + sz)
      | .dir n es =>
        match visitEntries maxFiles rest fileCount total with
        | .early t => .early t
        | .cont ds c t => .cont (.dir n es :: ds) c t

/-- Termination measure of the queue of the breadth-first walk. -/
def qMeasure (q : List (FsEntry × Nat)) : Nat :=
  (q.map (fun x => entryCount x.1)).sum

theorem entryCount_pos (e : FsEntry) : 0 < entryCount e := by
  cases e <;> simp [entryCount]

theorem qMeasure_cons (e : FsEntry) (d : Nat) (rest : List (FsEntry × Nat)) :
    qMeasure ((e, d) :: rest) = entryCount e + qMeasure rest := by
  simp [qMeasure]

theorem qMeasure_append (q r : List (FsEntry × Nat)) :
    qMeasure (q ++ r) = qMeasure q + qMeasure r := by
  simp [qMeasure]

theorem qMeasure_map_depth (ds : List FsEntry) (d : Nat) :
    qMeasure (ds.map (fun x => (x, d))) = entryCountList ds := by
  induction ds with
  | nil => simp [qMeasure, entryCountList]
  | cons e es ih =>
    simp only [List.map_cons, qMeasure_cons, entryCountList]
    rw [ih]

/-- Directories queued by the inner loop all come from the entry list, so
their combined entry count is bounded by the entry count of the list. -/
theorem visitEntries_count_le (maxFiles : Nat) :
    ∀ (es : List FsEntry) (c t : Nat) (ds : List FsEntry) (c' t' : Nat),
      visitEntries maxFiles es c t = .cont ds c' t' →
      entryCountList ds ≤ entryCountList es := by
  intro es
  induction es with
  | nil =>
    intro c t ds c' t' h
    simp [visitEntries] at h
    simp [h.1, entryCountList]
  | cons e rest ih =>
    intro c t ds c' t' h
    by_cases hc : c > maxFiles
    · simp [visitEntries, hc] at h
    · cases e with
      | file n sz =>
        simp only [visitEntries, if_neg hc] at h
        have := ih (c + 1) (t + sz) ds c' t' h
        simp [entryCountList]
        omega
      | dir n es' =>
        simp only [visitEntries, if_neg hc] at h
        cases hv : visitEntries maxFiles rest c t with
        | early t0 => rw [hv] at h; cases h
        | cont ds0 c0 t0 =>
          rw [hv] at h
          cases h
          have := ih c t ds0 _ _ hv
          simp [entryCountList, entryCount]
          omega

/-- Outer work-queue loop of `get_dir_size_async` (src/lib.rs lines
31-58): pop the front of the deque; skip subtrees deeper than
`maxDepth`; skip entries whose directory read fails; otherwise run the
inner entry loop, returning immediately when the file-count ceiling was
exceeded and queueing discovered subdirectories otherwise. -/
def walkSize (maxDepth maxFiles : Nat) (queue : List (FsEntry × Nat))
    (fileCount total : Nat) : Nat :=
  match queue with
  | [] => total
  | (e, depth) :: rest =>
    if depth > maxDepth then walkSize maxDepth maxFiles rest fileCount total
    else
      match hre : readEntries e with
      | none => walkSize maxDepth maxFiles rest fileCount total
      | some es =>
        match hv : visitEntries maxFiles es fileCount total with
        | .early t => t
        | .cont ds c t =>
          walkSize maxDepth maxFiles (rest ++ ds.map (fun x => (x, depth + 1))) c t
termination_by qMeasure queue
decreasing_by
  · have := entryCount_pos e
    simp [qMeasure_cons]; omega
  · have := entryCount_pos e
    simp [qMeasure_cons]; omega
  · have hce : entryCount e = 1 + entryCountList es := by
      cases e with
      | file n sz => simp [readEntries] at hre
      | dir n es' => simp [readEntries] at hre; subst hre; simp [entryCount]
    have hds := visitEntries_count_le maxFiles es fileCount total ds c t hv
    simp [qMeasure_cons, qMeasure_append, qMeasure_map_depth, hce]
    omega

/-- Safety constant `MAX_DIRECTORY_DEPTH` (src/lib.rs line 18). -/
def MAX_DIRECTORY_DEPTH : Nat := 50

/-- Safety constant `MAX_FILES_PER_PROJECT` (src/lib.rs line 19). -/
def MAX_FILES_PER_PROJECT : Nat := 10000

/-- Embedding of `get_dir_size_async` (src/lib.rs lines 21-62).  The
argument is `none` when the path does not exist (`path.exists()` is
false), in which case the function returns 0; otherwise the
breadth-first bounded walk starts from the root at depth 0 with both
counters at 0.  The Rust function returns a bare `u64`: the ceiling
events are only printed to stderr and are not part of the return value,
which this embedding reflects by returning a bare `Nat`. -/
def get_dir_size_async : Option FsEntry → Nat
  | none => 0
  | some e => walkSize MAX_DIRECTORY_DEPTH MAX_FILES_PER_PROJECT [(e, 0)] 0 0

theorem walkSize_nil (md mf c t : Nat) : walkSize md mf [] c t = t := by
  rw [walkSize]

theorem walkSize_skip (md mf c t d : Nat) (e : FsEntry)
    (rest : List (FsEntry × Nat)) (hd : d > md) :
    walkSize md mf ((e, d) :: rest) c t = walkSize md mf rest c t := by
  rw [walkSize]
  simp [hd]

theorem walkSize_file (md mf c t d : Nat) (n : String) (sz : Nat)
    (rest : List (FsEntry × Nat)) (hd : ¬ d > md) :
    walkSize md mf ((.file n sz, d) :: rest) c t = walkSize md mf rest c t := by
  rw [walkSize]
  simp [hd, readEntries]

theorem walkSize_dir_early (md mf c t d : Nat) (n : String) (es : List FsEntry)
    (rest : List (FsEntry × Nat)) (t' : Nat) (hd : ¬ d > md)
    (hv : visitEntries mf es c t = .early t') :
    walkSize md mf ((.dir n es, d) :: rest) c t = t' := by
  rw [walkSize]
  simp only [if_neg hd, readEntries]
  rw [hv]

theorem walkSize_dir_cont (md mf c t d : Nat) (n : String) (es : List FsEntry)
    (rest : List (FsEntry × Nat)) (ds : List FsEntry) (c' t' : Nat)
    (hd : ¬ d > md) (hv : visitEntries mf es c t = .cont ds c' t') :
    walkSize md mf ((.dir n es, d) :: rest) c t =
      walkSize md mf (rest ++ ds.map (fun x => (x, d + 1))) c' t' := by
  rw [walkSize]
  simp only [if_neg hd, readEntries]
  rw [hv]

/-- Combined total size of the first components of a size-walk queue. -/
def qTotal (q : List (FsEntry × Nat)) : Nat :=
  (q.map (fun x => totalSize x.1)).sum

theorem qTotal_cons (e : FsEntry) (d : Nat) (rest : List (FsEntry × Nat)) :
    qTotal ((e, d) :: rest) = totalSize e + qTotal rest := by
  simp [qTotal]

theorem qTotal_append (q r : List (FsEntry × Nat)) :
    qTotal (q ++ r) = qTotal q + qTotal r := by
  simp [qTotal]

theorem qTotal_map_depth (ds : List FsEntry) (d : Nat) :
    qTotal (ds.map (fun x => (x, d))) = totalSizeList ds := by
  induction ds with
  | nil => simp [qTotal, totalSizeList]
  | cons e es ih =>
    simp only [List.map_cons, qTotal_cons, totalSizeList]
    rw [ih]

/-- The inner loop never counts more bytes than the entries it sees:
on an early return the partial total is bounded by the old total plus
the bytes of the list; on a normal exit the new total plus the bytes
deferred to queued subdirectories is exactly bounded the same way. -/
theorem visitEntries_total_le (mf : Nat) :
    ∀ (es : List FsEntry) (c t : Nat),
      (∀ t', visitEntries mf es c t = .early t' → t' ≤ t + totalSizeList es) ∧
      (∀ ds c' t', visitEntries mf es c t = .cont ds c' t' →
        t' + totalSizeList ds ≤ t + totalSizeList es) := by
  intro es
  induction es with
  | nil =>
    intro c t
    constructor
    · intro t' h; simp [visitEntries] at h
    · intro ds c' t' h
      simp [visitEntries] at h
      simp [h.1, h.2.2, totalSizeList]
  | cons e rest ih =>
    intro c t
    by_cases hc : c > mf
    · constructor
      · intro t' h
        simp [visitEntries, hc] at h
        omega
      · intro ds c' t' h
        simp [visitEntries, hc] at h
    · cases e with
      | file n sz =>
        constructor
        · intro t' h
          simp only [visitEntries, if_neg hc] at h
          have := (ih (c + 1) (t + sz)).1 t' h
          simp [totalSizeList, totalSize]
          omega
        · intro ds c' t' h
          simp only [visitEntries, if_neg hc] at h
          have := (ih (c + 1) (t + sz)).2 ds c' t' h
          simp [totalSizeList, totalSize]
          omega
      | dir n es' =>
        constructor
        · intro t' h
          simp only [visitEntries, if_neg hc] at h
          cases hv : visitEntries mf rest c t with
          | early t0 =>
            rw [hv] at h; cases h
            have := (ih c t).1 _ hv
            simp [totalSizeList]
            omega
          | cont ds0 c0 t0 => rw [hv] at h; cases h
        · intro ds c' t' h
          simp only [visitEntries, if_neg hc] at h
          cases hv : visitEntries mf rest c t with
          | early t0 => rw [hv] at h; cases h
          | cont ds0 c0 t0 =>
            rw [hv] at h; cases h
            have := (ih c t).2 ds0 _ _ hv
            simp [totalSizeList, totalSize]
            omega

/-- The bounded size walk never returns more than the previous total
plus the true total size of everything still on the queue. -/
theorem walkSize_le (md mf : Nat) :
    ∀ (N : Nat) (q : List (FsEntry × Nat)) (c t : Nat), qMeasure q ≤ N →
      walkSize md mf q c t ≤ t + qTotal q := by
  intro N
  induction N with
  | zero =>
    intro q c t hq
    cases q with
    | nil => simp [walkSize_nil, qTotal]
    | cons x rest =>
      obtain ⟨e, d⟩ := x
      have := entryCount_pos e
      rw [qMeasure_cons] at hq
      omega
  | succ N ih =>
    intro q c t hq
    cases q with
    | nil => simp [walkSize_nil, qTotal]
    | cons x rest =>
      obtain ⟨e, d⟩ := x
      rw [qMeasure_cons] at hq
      have hintro := entryCount_pos e
      by_cases hd : d > md
      · rw [walkSize_skip md mf c t d e rest hd]
        have := ih rest c t (by omega)
        rw [qTotal_cons]
        omega
      · cases e with
        | file n sz =>
          rw [walkSize_file md mf c t d n sz rest hd]
          have := ih rest c t (by omega)
          rw [qTotal_cons]
          omega
        | dir n es =>
          cases hv : visitEntries mf es c t with
          | early t' =>
            rw [walkSize_dir_early md mf c t d n es rest t' hd hv]
            have := (visitEntries_total_le mf es c t).1 t' hv
            rw [qTotal_cons]
            simp [totalSize]
            omega
          | cont ds c' t' =>
            rw [walkSize_dir_cont md mf c t d n es rest ds c' t' hd hv]
            have hm : qMeasure (rest ++ ds.map (fun x => (x, d + 1))) ≤ N := by
              rw [qMeasure_append, qMeasure_map_depth]
              have := visitEntries_count_le mf es c t ds c' t' hv
              simp [entryCount] at hq
              omega
            have hrec := ih (rest ++ ds.map (fun x => (x, d + 1))) c' t' hm
            have hvt := (visitEntries_total_le mf es c t).2 ds c' t' hv
            rw [qTotal_append, qTotal_map_depth] at hrec
            rw [qTotal_cons]
            simp [totalSize]
            omega

/-- Closed form of the inner loop on a flat run of 1-byte files: all
files are summed while the running file count stays within the ceiling,
and the loop aborts with the partial sum as soon as the count exceeds
it. -/
theorem visitEntries_replicate (m : Nat) (nm : String) :
    ∀ (n c t : Nat),
      visitEntries m (List.replicate n (.file nm 1)) c t =
        if n ≤ m + 1 - c then .cont [] (c + n) (t + n)
        else .early (t + (m + 1 - c)) := by
  intro n
  induction n with
  | zero => intro c t; simp [visitEntries]
  | succ n ih =>
    intro c t
    by_cases hc : c > m
    · have h0 : m + 1 - c = 0 := by omega
      rw [List.replicate_succ]
      simp only [visitEntries, if_pos hc]
      rw [if_neg (by omega)]
      simp [h0]
    · rw [List.replicate_succ]
      simp only [visitEntries, if_neg hc]
      rw [ih (c + 1) (t + 1)]
      by_cases hn : n + 1 ≤ m + 1 - c
      · rw [if_pos (by omega), if_pos hn]
        have e1 : c + 1 + n = c + (n + 1) := by omega
        have e2 : t + 1 + n = t + (n + 1) := by omega
        rw [e1, e2]
      · rw [if_neg (by omega), if_neg hn]
        have e1 : t + 1 + (m + 1 - (c + 1)) = t + (m + 1 - c) := by omega
        rw [e1]

theorem totalSizeList_replicate (nm : String) (n : Nat) :
    totalSizeList (List.replicate n (.file nm 1)) = n := by
  induction n with
  | zero => simp [totalSizeList]
  | succ n ih => rw [List.replicate_succ]; simp [totalSizeList, totalSize, ih]; omega

/-- A flat directory with one more 1-byte file than the walk will sum
before the `file_count > MAX_FILES_PER_PROJECT` check aborts it. -/
def limitTree : FsEntry := .dir "big" (List.replicate 10002 (.file "f" 1))

/-- A flat directory whose true size coincides with the aborted partial
sum of `limitTree`, and which the walk measures exactly. -/
def exactTree : FsEntry := .dir "full" (List.replicate 10001 (.file "f" 1))

theorem get_dir_size_limitTree : get_dir_size_async (some limitTree) = 10001 := by
  have hv : visitEntries MAX_FILES_PER_PROJECT
      (List.replicate 10002 (.file "f" 1)) 0 0 = .early 10001 := by
    rw [visitEntries_replicate]
    norm_num [MAX_FILES_PER_PROJECT]
  calc get_dir_size_async (some limitTree)
      = walkSize MAX_DIRECTORY_DEPTH MAX_FILES_PER_PROJECT
          [(FsEntry.dir "big" (List.replicate 10002 (.file "f" 1)), 0)] 0 0 := rfl
    _ = 10001 := walkSize_dir_early MAX_DIRECTORY_DEPTH MAX_FILES_PER_PROJECT 0 0 0
          "big" (List.replicate 10002 (.file "f" 1)) [] 10001
          (by norm_num [MAX_DIRECTORY_DEPTH]) hv

theorem get_dir_size_exactTree : get_dir_size_async (some exactTree) = 10001 := by
  have hv : visitEntries MAX_FILES_PER_PROJECT
      (List.replicate 10001 (.file "f" 1)) 0 0 = .cont [] 10001 10001 := by
    rw [visitEntries_replicate]
    norm_num [MAX_FILES_PER_PROJECT]
  calc get_dir_size_async (some exactTree)
      = walkSize MAX_DIRECTORY_DEPTH MAX_FILES_PER_PROJECT
          [(FsEntry.dir "full" (List.replicate 10001 (.file "f" 1)), 0)] 0 0 := rfl
    _ = walkSize MAX_DIRECTORY_DEPTH MAX_FILES_PER_PROJECT
          ([] ++ ([] : List FsEntry).map (fun x => (x, 0 + 1))) 10001 10001 :=
        walkSize_dir_cont MAX_DIRECTORY_DEPTH MAX_FILES_PER_PROJECT 0 0 0 "full"
          (List.replicate 10001 (.file "f" 1)) [] [] 10001 10001
          (by norm_num [MAX_DIRECTORY_DEPTH]) hv
    _ = 10001 := walkSize_nil MAX_DIRECTORY_DEPTH MAX_FILES_PER_PROJECT 10001 10001

theorem totalSize_limitTree : totalSize limitTree = 10002 := by
  show totalSize (.dir "big" (List.replicate 10002 (.file "f" 1))) = 10002
  simp only [totalSize]
  rw [totalSizeList_replicate]

theorem totalSize_exactTree : totalSize exactTree = 10001 := by
  show totalSize (.dir "full" (List.replicate 10001 (.file "f" 1))) = 10001
  simp only [totalSize]
  rw [totalSizeList_replicate]

mutual
/-- Model of the `WalkDir::new(dir)` iteration filtered to directories
(src/lib.rs lines 72-76): depth-first, the directory itself first, then
its subtrees in order.  Every directory of the tree is yielded together
with its absolute path (`pre` is the path of the parent) and its entry
list; no exclusion is applied at this stage, exactly as in the source,
where exclusion happens only in the later `filter_map`. -/
def walkdirAll (pre : List String) : FsEntry → List (List String × List FsEntry)
  | .file _ _ => []
  | .dir n es => (pre ++ [n], es) :: walkdirList (pre ++ [n]) es

/-- Depth-first walk of a list of sibling subtrees. -/
def walkdirList (pre : List String) : List FsEntry → List (List String × List FsEntry)
  | [] => []
  | e :: es => walkdirAll pre e ++ walkdirList pre es
end

/-- Candidate directory entries of a run.  `none` models a root path on
which the walk cannot even start (root inaccessible): `WalkDir` then
yields a single `Err` which `filter_map(|e| e.ok())` silently drops, so
the entry list is empty. -/
def walkEntries : Option FsEntry → List (List String × List FsEntry)
  | none => []
  | some e => walkdirAll [] e

/-- Model of `dir_name.starts_with('.')`: the first character of the
name is a dot (stated over the character list so that it evaluates by
`decide`). -/
def startsWithDot (s : String) : Bool :=
  match s.data with
  | [] => false
  | c :: _ => c == '.'

/-- Exclusion test of src/lib.rs line 83, applied to the directory's own
file name only: built-in `EXCLUDE_DIR` (its contents live in a part of
`constant.rs` not present in this snapshot, so the set is a parameter
here), a leading dot, or the user-supplied `exclude_dirs`. -/
def isExcluded (EXCLUDE_DIR exclude_dirs : List String) (dir_name : String) : Bool :=
  EXCLUDE_DIR.contains dir_name || startsWithDot dir_name ||
    exclude_dirs.contains dir_name

/-- The `Cmd` value as used by `do_clean_all` (src/lib.rs lines 89-95
and 164): a command name and the marker files that identify its
ecosystem. -/
structure Cmd where
  name : String
  related_files : List String

/-- Marker test of src/lib.rs lines 90-94: some related file of the
command exists directly inside the directory (`path.join(file).exists()`
is true for an entry of any kind with that name). -/
def cmdMatches (cmd : Cmd) (entries : List FsEntry) : Bool :=
  cmd.related_files.any (fun file => entries.any (fun e => e.name == file))

/-- The `tasks_for_dir` loop of src/lib.rs lines 88-97: one `(path,
cmd.name)` pair per command whose marker test succeeds, in command-list
order. -/
def tasksForDir (commands : List Cmd) (path : List String)
    (entries : List FsEntry) : List (List String × String) :=
  commands.filterMap (fun cmd =>
    if cmdMatches cmd entries then some (path, cmd.name) else none)

/-- The `cleaning_tasks` computation of src/lib.rs lines 78-105: over
all walked directories, drop the ones whose own name is excluded, build
the per-directory task list, drop empty lists, and flatten. -/
def cleaningTasks (EXCLUDE_DIR exclude_dirs : List String) (commands : List Cmd)
    (root : Option FsEntry) : List (List String × String) :=
  ((walkEntries root).filterMap (fun pe =>
    if isExcluded EXCLUDE_DIR exclude_dirs (pe.1.getLastD "") then none
    else
      let tasks_for_dir := tasksForDir commands pe.1 pe.2
      if tasks_for_dir.isEmpty then none else some tasks_for_dir)).flatten

mutual
/-- Resolution of an absolute path (starting at the root's own name)
against the filesystem tree, modelling how the OS resolves the
`PathBuf` stored in a task when the walk is over. -/
def resolvePath (e : FsEntry) (p : List String) : Option FsEntry :=
  match p with
  | [] => none
  | [m] => if e.name == m then some e else none
  | m :: rest =>
    if e.name == m then
      match e with
      | .file _ _ => none
      | .dir _ es => resolveList es rest
    else none

/-- First successful resolution among sibling entries. -/
def resolveList (es : List FsEntry) (p : List String) : Option FsEntry :=
  match es with
  | [] => none
  | c :: cs =>
    match resolvePath c p with
    | some r => some r
    | none => resolveList cs p
end

/-- Size of the directory at path `p` of the run's filesystem, as
`get_dir_size_async` measures it (0 when the path does not resolve,
matching the `path.exists()` guard). -/
def dirSizeAt (root : Option FsEntry) (p : List String) : Nat :=
  get_dir_size_async (root.bind (fun e => resolvePath e p))

/-- The saturating per-task delta of src/lib.rs line 168:
`size_before.saturating_sub(size_after)`; on `Nat` truncated
subtraction is exactly `u64::saturating_sub`. -/
def cleaned_size (size_before size_after : Nat) : Nat := size_before - size_after

/-- Error type of src/cmd.rs lines 7-24 (the `io::Error` payloads are
dropped; only the shape matters for control flow). -/
inductive CleanError where
  | commandExecutionFailed (command : String) (path : String)
  | directoryRemovalFailed (path : String)
  | unknown
deriving DecidableEq

/-- One cleanup future of src/lib.rs lines 159-197, after the semaphore
permit is acquired: on `Ok` from `run_clean` the tuple is `(1,
size_before, size_after)`; on `Err` it is `(0, size_before, 0)`. -/
def execTask (run_clean_result : Except CleanError Unit)
    (size_before size_after : Nat) : Nat × Nat × Nat :=
  match run_clean_result with
  | .ok _ => (1, size_before, size_after)
  | .error _ => (0, size_before, 0)

/-- Full result record of one `do_clean_all` run (src/lib.rs lines
71-220).  `returnCount` is the `u32` the function returns. -/
structure RunReport where
  returnCount : Nat
  tasks : List (List String × String)
  sizesBefore : List Nat
  totalSizeBefore : Nat
  results : List (Nat × Nat × Nat)
  totalCleaned : Nat
  totalSizeAfter : Nat
  totalFreed : Nat

/-- Embedding of `do_clean_all` (src/lib.rs lines 71-220).  The
filesystem at the start of the run is `root` (`none` when the root path
is inaccessible).  Phase 1 measures every task against `root`: the
measurement futures only read the filesystem and `future::join_all`
completes before any cleaning future is even constructed, so each
`sizes_before` entry is `get_dir_size_async` of the initial state (the
interleaving of the two phases is verified separately on the scheduler
transition system below).  Phase 2's externally visible effects are the
two oracles: `run_clean_result` gives the outcome of `cmd.run_clean` for
a task and `size_after_measured` the value `get_dir_size_async` returns
for the task's directory after its cleanup, which depends on what the
concurrently running external commands deleted. -/
def do_clean_all (EXCLUDE_DIR exclude_dirs : List String) (commands : List Cmd)
    (root : Option FsEntry)
    (run_clean_result : List String × String → Except CleanError Unit)
    (size_after_measured : List String × String → Nat) : RunReport :=
  let cleaning_tasks := cleaningTasks EXCLUDE_DIR exclude_dirs commands root
  if cleaning_tasks.isEmpty then
    ⟨0, cleaning_tasks, [], 0, [], 0, 0, 0⟩
  else
    let sizes_before := cleaning_tasks.map (fun t => dirSizeAt root t.1)
    let total_size_before := sizes_before.sum
    let results := (cleaning_tasks.zip sizes_before).map
      (fun ts => execTask (run_clean_result ts.1) ts.2 (size_after_measured ts.1))
    let total_cleaned := (results.map (fun r => r.1)).sum
    let total_size_after := (results.map (fun r => r.2.2)).sum
    ⟨total_cleaned, cleaning_tasks, sizes_before, total_size_before, results,
      total_cleaned, total_size_after, total_size_before - total_size_after⟩

theorem natSub_toInt (a b : Nat) :
    ((a - b : Nat) : Int) = max 0 ((a : Int) - (b : Int)) := by
  rcases Nat.le_total b a with h | h
  · rw [Int.ofNat_sub h, max_eq_right (by omega)]
  · have h0 : a - b = 0 := by omega
    rw [h0, max_eq_left (by omega)]
    rfl

theorem do_clean_all_tasks (E X : List String) (C : List Cmd) (root : Option FsEntry)
    (rc : List String × String → Except CleanError Unit)
    (sa : List String × String → Nat) :
    (do_clean_all E X C root rc sa).tasks = cleaningTasks E X C root := by
  by_cases h : (cleaningTasks E X C root).isEmpty = true <;> simp [do_clean_all, h]

theorem do_clean_all_totalFreed_eq (E X : List String) (C : List Cmd)
    (root : Option FsEntry) (rc : List String × String → Except CleanError Unit)
    (sa : List String × String → Nat) :
    (do_clean_all E X C root rc sa).totalFreed =
      (do_clean_all E X C root rc sa).totalSizeBefore -
        (do_clean_all E X C root rc sa).totalSizeAfter := by
  by_cases h : (cleaningTasks E X C root).isEmpty = true <;> simp [do_clean_all, h]

theorem do_clean_all_sizesBefore (E X : List String) (C : List Cmd)
    (root : Option FsEntry) (rc : List String × String → Except CleanError Unit)
    (sa : List String × String → Nat)
    (h : ¬ (cleaningTasks E X C root).isEmpty = true) :
    (do_clean_all E X C root rc sa).sizesBefore =
      (cleaningTasks E X C root).map (fun t => dirSizeAt root t.1) := by
  simp [do_clean_all, h]

theorem do_clean_all_results (E X : List String) (C : List Cmd)
    (root : Option FsEntry) (rc : List String × String → Except CleanError Unit)
    (sa : List String × String → Nat)
    (h : ¬ (cleaningTasks E X C root).isEmpty = true) :
    (do_clean_all E X C root rc sa).results =
      ((cleaningTasks E X C root).zip
        ((cleaningTasks E X C root).map (fun t => dirSizeAt root t.1))).map
        (fun ts => execTask (rc ts.1) ts.2 (sa ts.1)) := by
  simp [do_clean_all, h]

theorem do_clean_all_totalSizeBefore (E X : List String) (C : List Cmd)
    (root : Option FsEntry) (rc : List String × String → Except CleanError Unit)
    (sa : List String × String → Nat)
    (h : ¬ (cleaningTasks E X C root).isEmpty = true) :
    (do_clean_all E X C root rc sa).totalSizeBefore =
      ((cleaningTasks E X C root).map (fun t => dirSizeAt root t.1)).sum := by
  simp [do_clean_all, h]

theorem do_clean_all_totalSizeAfter (E X : List String) (C : List Cmd)
    (root : Option FsEntry) (rc : List String × String → Except CleanError Unit)
    (sa : List String × String → Nat)
    (h : ¬ (cleaningTasks E X C root).isEmpty = true) :
    (do_clean_all E X C root rc sa).totalSizeAfter =
      (((do_clean_all E X C root rc sa).results).map (fun r => r.2.2)).sum := by
  rw [do_clean_all_results E X C root rc sa h]
  simp [do_clean_all, h]

/-- C4: the claim that a size computation that hits the file-count
ceiling signals the lower-bound condition to the caller distinguishably
is false.  `get_dir_size_async` returns a bare number (the Rust function
returns `u64` and only prints a stderr warning): on `limitTree` the
ceiling is hit mid-walk and the partial sum 10001 is returned, strictly
below the true size 10002, yet that return value is identical to the
exact measurement of `exactTree`, so no caller can distinguish the
partial result from an exact one. -/
theorem c4_counterexample :
    get_dir_size_async (some limitTree) < totalSize limitTree ∧
    get_dir_size_async (some exactTree) = totalSize exactTree ∧
    get_dir_size_async (some limitTree) = get_dir_size_async (some exactTree) := by
  rw [get_dir_size_limitTree, get_dir_size_exactTree, totalSize_limitTree,
    totalSize_exactTree]
  norm_num

/-- C4 (amended): when the file-count ceiling (or the depth ceiling) cuts
the walk short, `get_dir_size_async` returns the partial sum accumulated
so far, which is always a lower bound of the true directory size; the
ceiling event is reported only as a stderr warning, not through the
return value, so the caller cannot distinguish a partial result from an
exact measurement. -/
theorem c4_amended_lower_bound (e : FsEntry) :
    get_dir_size_async (some e) ≤ totalSize e := by
  have h := walkSize_le MAX_DIRECTORY_DEPTH MAX_FILES_PER_PROJECT
    (qMeasure [(e, 0)]) [(e, 0)] 0 0 le_rfl
  have hq : qTotal [(e, 0)] = totalSize e := by simp [qTotal]
  rw [hq] at h
  simpa [get_dir_size_async] using h

/-- Fixed demo command table: the cargo ecosystem with its marker file. -/
def demoCmds : List Cmd := [⟨"cargo", ["Cargo.toml"]⟩]

/-- Cleanup-outcome oracle that always succeeds. -/
def demoOk : List String × String → Except CleanError Unit := fun _ => .ok ()

/-- Post-cleanup size oracle that always measures 0. -/
def demoZero : List String × String → Nat := fun _ => 0

/-- C5: the claim that an inaccessible root is reported as a terminal
failure of the run is false.  `WalkDir` errors are dropped by
`filter_map(|e| e.ok())`, so an inaccessible root (`root = none`) gives
an empty candidate set, and `do_clean_all` takes the normal "No projects
found to clean" path and returns 0 — the very same `RunReport`, field
for field, as a successful run on an accessible empty directory.  There
is no failure channel at all: the function's return type is a plain
count. -/
theorem c5_counterexample :
    (do_clean_all [] [] demoCmds none demoOk demoZero).returnCount = 0 ∧
    do_clean_all [] [] demoCmds none demoOk demoZero =
      do_clean_all [] [] demoCmds (some (.dir "empty" [])) demoOk demoZero := by
  constructor
  · rfl
  · have h : cleaningTasks [] [] demoCmds (some (.dir "empty" [])) = [] := by decide
    have h0 : cleaningTasks [] [] demoCmds none = [] := rfl
    simp [do_clean_all, h, h0]

/-- C5 (amended): when the root is inaccessible the walk produces no
entries, so the run finds no tasks, returns 0 and reports empty
accounting — a normal return indistinguishable from a clean tree; the
run operation has no terminal-failure outcome. -/
theorem c5_amended (EXCLUDE_DIR exclude_dirs : List String) (commands : List Cmd)
    (rc : List String × String → Except CleanError Unit)
    (sa : List String × String → Nat) :
    do_clean_all EXCLUDE_DIR exclude_dirs commands none rc sa =
      (⟨0, [], [], 0, [], 0, 0, 0⟩ : RunReport) := rfl

/-- C2: for every task result of a `do_clean_all` run, the per-task
freed amount computed at src/lib.rs line 168 by
`size_before.saturating_sub(size_after)` equals
`max(0, sizeBefore - sizeAfter)` over the integers — 0, never negative,
when the post-cleanup measurement exceeds the pre-cleanup one — and the
run total `total_freed` (line 210) is the same clamp of
`total_size_before - total_size_after`. -/
theorem c2_bytes_freed_clamped (EXCLUDE_DIR exclude_dirs : List String)
    (commands : List Cmd) (root : Option FsEntry)
    (rc : List String × String → Except CleanError Unit)
    (sa : List String × String → Nat) (r : Nat × Nat × Nat)
    (hr : r ∈ (do_clean_all EXCLUDE_DIR exclude_dirs commands root rc sa).results) :
    ((cleaned_size r.2.1 r.2.2 : Nat) : Int) =
      max 0 ((r.2.1 : Int) - (r.2.2 : Int)) ∧
    ((do_clean_all EXCLUDE_DIR exclude_dirs commands root rc sa).totalFreed : Int) =
      max 0
        (((do_clean_all EXCLUDE_DIR exclude_dirs commands root rc sa).totalSizeBefore : Int) -
          ((do_clean_all EXCLUDE_DIR exclude_dirs commands root rc sa).totalSizeAfter : Int)) := by
  refine ⟨natSub_toInt r.2.1 r.2.2, ?_⟩
  rw [do_clean_all_totalFreed_eq]
  exact natSub_toInt _ _

/-- Demo project tree: the root directory itself is a cargo project. -/
def demoCargoTree : FsEntry := .dir "r" [.file "Cargo.toml" 7]

/-- Demo run of `do_clean_all` over `demoCargoTree`. -/
def demoReport : RunReport :=
  do_clean_all [] [] demoCmds (some demoCargoTree) demoOk demoZero

/-- The single task result of `demoReport`. -/
def demoTaskResult : Nat × Nat × Nat :=
  execTask (demoOk (["r"], "cargo")) (dirSizeAt (some demoCargoTree) ["r"])
    (demoZero (["r"], "cargo"))

theorem demoReport_results : demoReport.results = [demoTaskResult] := by
  have hne : ¬ (cleaningTasks [] [] demoCmds (some demoCargoTree)).isEmpty = true := by
    decide
  have ht : cleaningTasks [] [] demoCmds (some demoCargoTree) = [(["r"], "cargo")] := by
    decide
  rw [demoReport, do_clean_all_results _ _ _ _ _ _ hne, ht]
  rfl

/-- Witness for C2: the clamp identity holds at the concrete task result
of the demo run. -/
theorem c2_witness :
    demoTaskResult ∈ demoReport.results ∧
    ((cleaned_size demoTaskResult.2.1 demoTaskResult.2.2 : Nat) : Int) =
      max 0 ((demoTaskResult.2.1 : Int) - (demoTaskResult.2.2 : Int)) := by
  have hm : demoTaskResult ∈ demoReport.results := by
    rw [demoReport_results]
    exact List.mem_singleton.mpr rfl
  exact ⟨hm, (c2_bytes_freed_clamped [] [] demoCmds (some demoCargoTree) demoOk
    demoZero demoTaskResult hm).1⟩

theorem getD_sum_le : ∀ (A B : List Nat), A.length = B.length →
    (∀ j, A.getD j 0 ≤ B.getD j 0) → A.sum ≤ B.sum := by
  intro A
  induction A with
  | nil =>
    intro B hlen _
    cases B with
    | nil => simp
    | cons b B' => simp at hlen
  | cons a A' ih =>
    intro B hlen hj
    cases B with
    | nil => simp at hlen
    | cons b B' =>
      simp only [List.length_cons] at hlen
      have h0 := hj 0
      simp only [List.getD_cons_zero] at h0
      have hrest := ih B' (by omega) (fun j => by
        have := hj (j + 1)
        simpa [List.getD_cons_succ] using this)
      simp only [List.sum_cons]
      omega

theorem getD_sum_sub_ge : ∀ (B A : List Nat) (i : Nat), A.length = B.length →
    i < B.length → A.getD i 0 = 0 → (∀ j, A.getD j 0 ≤ B.getD j 0) →
    B.getD i 0 ≤ B.sum - A.sum := by
  intro B
  induction B with
  | nil => intro A i _ hi _ _; simp at hi
  | cons b B' ih =>
    intro A i hlen hi h0 hj
    cases A with
    | nil => simp at hlen
    | cons a A' =>
      simp only [List.length_cons] at hlen hi
      have ha : a ≤ b := by have := hj 0; simpa [List.getD_cons_zero] using this
      have hsle : A'.sum ≤ B'.sum := getD_sum_le A' B' (by omega) (fun j => by
        have := hj (j + 1); simpa [List.getD_cons_succ] using this)
      cases i with
      | zero =>
        simp only [List.getD_cons_zero] at h0 ⊢
        subst h0
        simp only [List.sum_cons]
        omega
      | succ i' =>
        simp only [List.getD_cons_succ] at h0 ⊢
        have hrec := ih A' i' (by omega) (by omega) h0 (fun j => by
          have := hj (j + 1); simpa [List.getD_cons_succ] using this)
        simp only [List.sum_cons]
        omega

/-- C10: when a task's `run_clean` returns an error, the `Err` arm of
src/lib.rs lines 187-196 records the tuple `(0, size_before, 0)` — the
measured size-before is kept and the size-after is recorded as 0 — and
the run total of lines 208-210 is `total_size_before` minus the sum of
the recorded size-after values, so whenever every recorded size-after is
bounded by the corresponding size-before, the failed task contributes
its entire size-before to the reported total freed even though nothing
was deleted for it. -/
theorem c10_failed_task_accounting (E X : List String) (C : List Cmd)
    (root : Option FsEntry) (rc : List String × String → Except CleanError Unit)
    (sa : List String × String → Nat) (i : Nat) (err : CleanError)
    (hi : i < (do_clean_all E X C root rc sa).tasks.length)
    (hf : rc ((do_clean_all E X C root rc sa).tasks.getD i ([], "")) = .error err) :
    (do_clean_all E X C root rc sa).results.getD i (0, 0, 0) =
      (0, (do_clean_all E X C root rc sa).sizesBefore.getD i 0, 0) ∧
    (do_clean_all E X C root rc sa).totalFreed =
      (do_clean_all E X C root rc sa).totalSizeBefore -
        (do_clean_all E X C root rc sa).totalSizeAfter ∧
    ((∀ j, ((do_clean_all E X C root rc sa).results.getD j (0, 0, 0)).2.2 ≤
        (do_clean_all E X C root rc sa).sizesBefore.getD j 0) →
      (do_clean_all E X C root rc sa).sizesBefore.getD i 0 ≤
        (do_clean_all E X C root rc sa).totalFreed) := by
  have htasks := do_clean_all_tasks E X C root rc sa
  rw [htasks] at hi hf
  have hne : ¬ (cleaningTasks E X C root).isEmpty = true := by
    intro h
    rw [List.isEmpty_iff] at h
    rw [h] at hi
    simp at hi
  have hsz := do_clean_all_sizesBefore E X C root rc sa hne
  have hres := do_clean_all_results E X C root rc sa hne
  have hlenB : ((cleaningTasks E X C root).map
      (fun t => dirSizeAt root t.1)).length = (cleaningTasks E X C root).length := by
    simp
  have hzlen : ((cleaningTasks E X C root).zip ((cleaningTasks E X C root).map
      (fun t => dirSizeAt root t.1))).length = (cleaningTasks E X C root).length := by
    simp
  have hreslen : (do_clean_all E X C root rc sa).results.length =
      (cleaningTasks E X C root).length := by
    rw [hres]; simp
  have hresi : (do_clean_all E X C root rc sa).results.getD i (0, 0, 0) =
      execTask (rc ((cleaningTasks E X C root).getD i ([], "")))
        (((cleaningTasks E X C root).map (fun t => dirSizeAt root t.1)).getD i 0)
        (sa ((cleaningTasks E X C root).getD i ([], ""))) := by
    rw [hres]
    rw [List.getD_eq_getElem _ _ (by simpa [hzlen] using hi)]
    rw [List.getElem_map, List.getElem_zip]
    rw [List.getD_eq_getElem _ _ hi, List.getD_eq_getElem _ _ (by omega)]
  have hfirst : (do_clean_all E X C root rc sa).results.getD i (0, 0, 0) =
      (0, (do_clean_all E X C root rc sa).sizesBefore.getD i 0, 0) := by
    rw [hresi, hf, hsz]
    rfl
  refine ⟨hfirst, do_clean_all_totalFreed_eq E X C root rc sa, ?_⟩
  intro hmono
  have hTB := do_clean_all_totalSizeBefore E X C root rc sa hne
  have hTA := do_clean_all_totalSizeAfter E X C root rc sa hne
  have hAlen : ((do_clean_all E X C root rc sa).results.map (fun r => r.2.2)).length =
      ((cleaningTasks E X C root).map (fun t => dirSizeAt root t.1)).length := by
    simp [hreslen]
  have hA : ∀ j, ((do_clean_all E X C root rc sa).results.map
      (fun r => r.2.2)).getD j 0 =
      ((do_clean_all E X C root rc sa).results.getD j (0, 0, 0)).2.2 := by
    intro j
    by_cases hj : j < (do_clean_all E X C root rc sa).results.length
    · rw [List.getD_eq_getElem _ _ (by simpa using hj), List.getElem_map,
        List.getD_eq_getElem _ _ hj]
    · rw [List.getD_eq_default _ _ (by simpa using hj),
        List.getD_eq_default _ _ (by omega)]
  have hAi : ((do_clean_all E X C root rc sa).results.map
      (fun r => r.2.2)).getD i 0 = 0 := by
    rw [hA i, hfirst]
  have hptw : ∀ j, ((do_clean_all E X C root rc sa).results.map
      (fun r => r.2.2)).getD j 0 ≤
      ((cleaningTasks E X C root).map (fun t => dirSizeAt root t.1)).getD j 0 := by
    intro j
    rw [hA j]
    have := hmono j
    rwa [hsz] at this
  have hmain := getD_sum_sub_ge
    ((cleaningTasks E X C root).map (fun t => dirSizeAt root t.1))
    ((do_clean_all E X C root rc sa).results.map (fun r => r.2.2)) i
    hAlen (by omega) hAi hptw
  rw [do_clean_all_totalFreed_eq, hTB, hTA, hsz]
  exact hmain

/-- Cleanup-outcome oracle that always fails. -/
def demoFail : List String × String → Except CleanError Unit := fun _ => .error .unknown

/-- Demo run in which the single task's cleanup action fails. -/
def demoFailReport : RunReport :=
  do_clean_all [] [] demoCmds (some demoCargoTree) demoFail demoZero

/-- Witness for C10: in the demo failing run, the task's result keeps
its size-before and records size-after 0. -/
theorem c10_witness :
    demoFailReport.results.getD 0 (0, 0, 0) =
      (0, demoFailReport.sizesBefore.getD 0 0, 0) := by
  have hi : 0 < (do_clean_all [] [] demoCmds (some demoCargoTree) demoFail
      demoZero).tasks.length := by
    rw [do_clean_all_tasks]
    decide
  exact (c10_failed_task_accounting [] [] demoCmds (some demoCargoTree) demoFail
    demoZero 0 .unknown hi rfl).1

mutual
/-- Every directory yielded by walking the subtree rooted at `e` has a
path that extends `pre` by `e`'s own name. -/
theorem walkdirAll_path_shape (pre : List String) (e : FsEntry) :
    ∀ pe ∈ walkdirAll pre e, ∃ suf, pe.1 = pre ++ e.name :: suf := by
  cases e with
  | file n sz => intro pe hpe; simp [walkdirAll] at hpe
  | dir n es =>
    intro pe hpe
    rw [walkdirAll] at hpe
    rcases List.mem_cons.mp hpe with h | h
    · subst h
      exact ⟨[], by simp [FsEntry.name]⟩
    · obtain ⟨m, _, suf, hsuf⟩ := walkdirList_path_shape (pre ++ [n]) es pe h
      exact ⟨m :: suf, by simp [hsuf, FsEntry.name]⟩

/-- Every directory yielded by walking a list of sibling subtrees has a
path that extends `pre` by the name of one of the siblings. -/
theorem walkdirList_path_shape (pre : List String) (es : List FsEntry) :
    ∀ pe ∈ walkdirList pre es,
      ∃ m ∈ es.map FsEntry.name, ∃ suf, pe.1 = pre ++ m :: suf := by
  cases es with
  | nil => intro pe hpe; simp [walkdirList] at hpe
  | cons e rest =>
    intro pe hpe
    rw [walkdirList] at hpe
    rcases List.mem_append.mp hpe with h | h
    · obtain ⟨suf, hsuf⟩ := walkdirAll_path_shape pre e pe h
      exact ⟨e.name, by simp, suf, hsuf⟩
    · obtain ⟨m, hm, suf, hsuf⟩ := walkdirList_path_shape pre rest pe h
      exact ⟨m, by simp [List.mem_cons]; right; simpa using hm, suf, hsuf⟩
end

/-- Distinctness of a list of sibling names, as the source filesystem
guarantees for the children of one directory. -/
def namesNodup : List String → Bool
  | [] => true
  | n :: ns => (!ns.contains n) && namesNodup ns

mutual
/-- Well-formedness of a filesystem tree: the children of every
directory carry pairwise distinct names (true of any real directory). -/
def fsWf : FsEntry → Bool
  | .file _ _ => true
  | .dir _ es => namesNodup (es.map FsEntry.name) && fsWfList es

/-- Well-formedness of a list of subtrees. -/
def fsWfList : List FsEntry → Bool
  | [] => true
  | e :: es => fsWf e && fsWfList es
end

mutual
/-- On a well-formed tree the walk yields pairwise distinct paths. -/
theorem walkdirAll_paths_nodup (pre : List String) (e : FsEntry)
    (h : fsWf e = true) : ((walkdirAll pre e).map Prod.fst).Nodup := by
  cases e with
  | file n sz => simp [walkdirAll]
  | dir n es =>
    rw [walkdirAll]
    simp only [fsWf, Bool.and_eq_true] at h
    rw [List.map_cons, List.nodup_cons]
    constructor
    · intro hmem
      obtain ⟨pe, hpe, hfst⟩ := List.mem_map.mp hmem
      obtain ⟨m, _, suf, hsuf⟩ := walkdirList_path_shape (pre ++ [n]) es pe hpe
      rw [hsuf] at hfst
      have := congrArg List.length hfst
      simp at this
    · exact walkdirList_paths_nodup (pre ++ [n]) es h.2 h.1

/-- On well-formed sibling subtrees with distinct names the combined
walk yields pairwise distinct paths. -/
theorem walkdirList_paths_nodup (pre : List String) (es : List FsEntry)
    (h1 : fsWfList es = true) (h2 : namesNodup (es.map FsEntry.name) = true) :
    ((walkdirList pre es).map Prod.fst).Nodup := by
  cases es with
  | nil => simp [walkdirList]
  | cons e rest =>
    rw [walkdirList]
    simp only [fsWfList, Bool.and_eq_true] at h1
    simp only [List.map_cons, namesNodup, Bool.and_eq_true, Bool.not_eq_true'] at h2
    rw [List.map_append, List.nodup_append]
    refine ⟨walkdirAll_paths_nodup pre e h1.1,
      walkdirList_paths_nodup pre rest h1.2 h2.2, ?_⟩
    intro p hpA hpB
    obtain ⟨peA, hpeA, hfA⟩ := List.mem_map.mp hpA
    obtain ⟨peB, hpeB, hfB⟩ := List.mem_map.mp hpB
    obtain ⟨sufA, hsA⟩ := walkdirAll_path_shape pre e peA hpeA
    obtain ⟨m, hm, sufB, hsB⟩ := walkdirList_path_shape pre rest peB hpeB
    have heq : pre ++ e.name :: sufA = pre ++ m :: sufB := by
      rw [← hsA, ← hsB, hfA, hfB]
    have hcons := (List.append_right_inj pre).mp heq
    have hname : e.name = m := (List.cons.injEq _ _ _ _).mp hcons |>.1
    rw [← hname] at hm
    have : (rest.map FsEntry.name).contains e.name = true :=
      List.elem_eq_true_of_mem (by simpa using hm)
    rw [this] at h2
    simp at h2
end

/-- Tasks contributed by one walked directory after the exclusion check:
the empty list when the directory's own name is excluded, the
per-ecosystem task list otherwise.  (The source's extra "skip empty
lists before flattening" step does not change the flattened result.) -/
def perEntryTasks (EXCLUDE_DIR exclude_dirs : List String) (commands : List Cmd)
    (pe : List String × List FsEntry) : List (List String × String) :=
  if isExcluded EXCLUDE_DIR exclude_dirs (pe.1.getLastD "") then []
  else tasksForDir commands pe.1 pe.2

theorem flatten_filterMap_toD {α β : Type} (f : α → Option (List β)) :
    ∀ l : List α, (l.filterMap f).flatten = (l.map (fun x => (f x).getD [])).flatten := by
  intro l
  induction l with
  | nil => rfl
  | cons a l ih =>
    rw [List.filterMap_cons, List.map_cons, List.flatten_cons, ← ih]
    cases hfa : f a with
    | none => simp
    | some b => simp

theorem perEntry_getD (E X : List String) (C : List Cmd)
    (pe : List String × List FsEntry) :
    ((if isExcluded E X (pe.1.getLastD "") = true then none
      else
        let tasks_for_dir := tasksForDir C pe.1 pe.2
        if tasks_for_dir.isEmpty = true then none
        else some tasks_for_dir).getD [])
      = perEntryTasks E X C pe := by
  rw [perEntryTasks]
  by_cases hex : isExcluded E X (pe.1.getLastD "") = true
  · rw [if_pos hex, if_pos hex]
    rfl
  · rw [if_neg hex, if_neg hex]
    show ((if (tasksForDir C pe.1 pe.2).isEmpty = true then none
      else some (tasksForDir C pe.1 pe.2)).getD []) = tasksForDir C pe.1 pe.2
    by_cases hemp : (tasksForDir C pe.1 pe.2).isEmpty = true
    · rw [if_pos hemp, List.isEmpty_iff.mp hemp]
      rfl
    · rw [if_neg hemp]
      rfl

theorem cleaningTasks_eq_flatten_map (E X : List String) (C : List Cmd)
    (root : Option FsEntry) :
    cleaningTasks E X C root =
      ((walkEntries root).map (perEntryTasks E X C)).flatten := by
  rw [cleaningTasks, flatten_filterMap_toD]
  congr 1
  exact List.map_congr_left (fun pe _ => perEntry_getD E X C pe)

theorem mem_tasksForDir (C : List Cmd) (p : List String) (es : List FsEntry)
    (t : List String × String) :
    t ∈ tasksForDir C p es ↔
      ∃ cmd ∈ C, cmdMatches cmd es = true ∧ t = (p, cmd.name) := by
  rw [tasksForDir]
  constructor
  · intro h
    obtain ⟨cmd, hcmd, hsome⟩ := List.mem_filterMap.mp h
    by_cases hm : cmdMatches cmd es = true
    · rw [if_pos hm] at hsome
      exact ⟨cmd, hcmd, hm, by injection hsome with h'; rw [h']⟩
    · rw [if_neg hm] at hsome
      cases hsome
  · intro ⟨cmd, hcmd, hm, ht⟩
    exact List.mem_filterMap.mpr ⟨cmd, hcmd, by rw [if_pos hm, ht]⟩

theorem tasksForDir_fst (C : List Cmd) (p : List String) (es : List FsEntry)
    (t : List String × String) (h : t ∈ tasksForDir C p es) : t.1 = p := by
  obtain ⟨cmd, _, _, ht⟩ := (mem_tasksForDir C p es t).mp h
  rw [ht]

theorem mem_cleaningTasks (E X : List String) (C : List Cmd)
    (root : Option FsEntry) (t : List String × String) :
    t ∈ cleaningTasks E X C root ↔
      ∃ pe ∈ walkEntries root,
        isExcluded E X (pe.1.getLastD "") = false ∧
        t ∈ tasksForDir C pe.1 pe.2 := by
  rw [cleaningTasks_eq_flatten_map]
  rw [List.mem_flatten]
  constructor
  · intro ⟨l, hl, htl⟩
    obtain ⟨pe, hpe, hlpe⟩ := List.mem_map.mp hl
    rw [← hlpe, perEntryTasks] at htl
    by_cases hex : isExcluded E X (pe.1.getLastD "") = true
    · rw [if_pos hex] at htl; cases htl
    · rw [if_neg hex] at htl
      have hfalse : isExcluded E X (pe.1.getLastD "") = false := by
        cases hb : isExcluded E X (pe.1.getLastD "") with
        | true => exact absurd hb hex
        | false => rfl
      exact ⟨pe, hpe, hfalse, htl⟩
  · intro ⟨pe, hpe, hex, htl⟩
    refine ⟨perEntryTasks E X C pe, List.mem_map.mpr ⟨pe, hpe, rfl⟩, ?_⟩
    have hexne : ¬ isExcluded E X (pe.1.getLastD "") = true := by
      intro hh
      rw [hh] at hex
      cases hex
    rw [perEntryTasks, if_neg hexne]
    exact htl

/-- C1 (amended): the exclusion rules of src/lib.rs line 83 are applied
to each walked directory's own name only, so no produced cleanup task is
for a directory whose own name is in `EXCLUDE_DIR`, starts with a dot,
or is in `exclude_dirs` — but, as the counterexample shows, descendants
of an excluded directory are still walked and may still produce tasks,
because the walk prunes nothing. -/
theorem c1_amended_own_name_only (EXCLUDE_DIR exclude_dirs : List String)
    (commands : List Cmd) (root : Option FsEntry) (t : List String × String)
    (ht : t ∈ cleaningTasks EXCLUDE_DIR exclude_dirs commands root) :
    isExcluded EXCLUDE_DIR exclude_dirs (t.1.getLastD "") = false := by
  obtain ⟨pe, _, hex, htd⟩ :=
    (mem_cleaningTasks EXCLUDE_DIR exclude_dirs commands root t).mp ht
  rw [tasksForDir_fst commands pe.1 pe.2 t htd]
  exact hex

/-- Tree with an excluded directory containing a nested project. -/
def exTree : FsEntry :=
  .dir "root" [.dir "skip" [.dir "proj" [.file "Cargo.toml" 3]]]

/-- C1: the claim that no cleanup task is produced for the descendants
of an excluded directory is false.  `do_clean_all` collects every
directory with `WalkDir` and applies the exclusion test of line 83 to
each directory's own name only — nothing prunes the subtree of an
excluded directory.  With `"skip"` in the user exclusion set, the walk
still visits `root/skip/proj`, whose own name is not excluded, and its
`Cargo.toml` marker produces a cargo cleanup task for a descendant of
the excluded directory. -/
theorem c1_counterexample :
    isExcluded [] ["skip"] "skip" = true ∧
    (["root", "skip", "proj"], "cargo") ∈
      cleaningTasks [] ["skip"] demoCmds (some exTree) := by
  constructor
  · decide
  · decide

/-- Witness for C1 (amended): the concrete task of the demo run has a
non-excluded directory name. -/
theorem c1_amended_witness :
    (["r"], "cargo") ∈ cleaningTasks [] [] demoCmds (some demoCargoTree) ∧
    isExcluded [] [] (((["r"] : List String), "cargo").1.getLastD "") = false := by
  have hm : (["r"], "cargo") ∈ cleaningTasks [] [] demoCmds (some demoCargoTree) := by
    decide
  exact ⟨hm, c1_amended_own_name_only [] [] demoCmds (some demoCargoTree)
    (["r"], "cargo") hm⟩

theorem countP_perEntry_ne (E X : List String) (C : List Cmd) (p : List String)
    (pe : List String × List FsEntry) (hne : pe.1 ≠ p) :
    (perEntryTasks E X C pe).countP (fun t => t.1 == p) = 0 := by
  apply List.countP_eq_zero.mpr
  intro t ht
  rw [perEntryTasks] at ht
  split at ht
  · cases ht
  · have hfst := tasksForDir_fst C pe.1 pe.2 t ht
    simp only [beq_iff_eq]
    rw [hfst]
    exact hne

theorem countP_flatten_zero (E X : List String) (C : List Cmd) (p : List String) :
    ∀ (l : List (List String × List FsEntry)), (∀ pe ∈ l, pe.1 ≠ p) →
      ((l.map (perEntryTasks E X C)).flatten).countP (fun t => t.1 == p) = 0 := by
  intro l
  induction l with
  | nil => intro _; rfl
  | cons a l ih =>
    intro h
    rw [List.map_cons, List.flatten_cons, List.countP_append]
    rw [countP_perEntry_ne E X C p a (h a (List.mem_cons_self a l)),
      ih (fun pe hpe => h pe (List.mem_cons_of_mem a hpe))]

theorem countP_flatten_unique (E X : List String) (C : List Cmd) (p : List String)
    (es : List FsEntry) :
    ∀ (l : List (List String × List FsEntry)), (l.map Prod.fst).Nodup →
      (p, es) ∈ l →
      ((l.map (perEntryTasks E X C)).flatten).countP (fun t => t.1 == p) =
        (perEntryTasks E X C (p, es)).countP (fun t => t.1 == p) := by
  intro l
  induction l with
  | nil => intro _ hw; cases hw
  | cons a l ih =>
    intro hnd hw
    rw [List.map_cons, List.nodup_cons] at hnd
    rw [List.map_cons, List.flatten_cons, List.countP_append]
    rcases List.mem_cons.mp hw with h | h
    · subst h
      have hzero := countP_flatten_zero E X C p l (fun pe hpe hfst =>
        hnd.1 (by rw [← hfst]; exact List.mem_map.mpr ⟨pe, hpe, rfl⟩))
      rw [hzero, Nat.add_zero]
    · have hane : a.1 ≠ p := by
        intro hfst
        apply hnd.1
        rw [hfst]
        exact List.mem_map.mpr ⟨(p, es), h, rfl⟩
      rw [countP_perEntry_ne E X C p a hane, ih hnd.2 h, Nat.zero_add]

theorem tasksForDir_eq_map_filter (C : List Cmd) (p : List String)
    (es : List FsEntry) :
    tasksForDir C p es =
      (C.filter (fun c => cmdMatches c es)).map (fun c => (p, c.name)) := by
  induction C with
  | nil => rfl
  | cons c C' ih =>
    rw [tasksForDir, List.filterMap_cons, List.filter_cons]
    by_cases hm : cmdMatches c es = true
    · rw [if_pos hm, if_pos hm, List.map_cons]
      show (p, c.name) :: tasksForDir C' p es =
        (p, c.name) :: (C'.filter (fun c => cmdMatches c es)).map (fun c => (p, c.name))
      rw [ih]
    · rw [if_neg hm, if_neg hm]
      exact ih

theorem countP_tasksForDir (C : List Cmd) (p : List String) (es : List FsEntry) :
    (tasksForDir C p es).countP (fun t => t.1 == p) =
      (C.filter (fun c => cmdMatches c es)).length := by
  rw [tasksForDir_eq_map_filter, List.countP_map]
  have hconst : ((fun t : List String × String => t.1 == p) ∘
      (fun c : Cmd => (p, c.name))) = fun _ => true := by
    funext c
    simp [Function.comp]
  rw [hconst, List.countP_true]

/-- Well-formedness lifted to the optional run root. -/
def fsWfOpt : Option FsEntry → Bool
  | none => true
  | some e => fsWf e

/-- C9: for every non-excluded directory yielded by the walk of a
well-formed tree (distinct sibling names, as on a real filesystem), the
number of cleanup tasks carrying that directory's path equals the number
of registered commands whose marker-file set has a member directly
inside the directory: k matching ecosystems give exactly k tasks with no
deduplication, and no match gives no task (the k = 0 case). -/
theorem c9_tasks_per_matching_ecosystem (EXCLUDE_DIR exclude_dirs : List String)
    (commands : List Cmd) (root : Option FsEntry) (p : List String)
    (es : List FsEntry) (hwf : fsWfOpt root = true)
    (hw : (p, es) ∈ walkEntries root)
    (hex : isExcluded EXCLUDE_DIR exclude_dirs (p.getLastD "") = false) :
    (cleaningTasks EXCLUDE_DIR exclude_dirs commands root).countP
        (fun t => t.1 == p) =
      (commands.filter (fun c => cmdMatches c es)).length := by
  have hnd : ((walkEntries root).map Prod.fst).Nodup := by
    cases root with
    | none => simp [walkEntries]
    | some e => exact walkdirAll_paths_nodup [] e hwf
  rw [cleaningTasks_eq_flatten_map]
  rw [countP_flatten_unique EXCLUDE_DIR exclude_dirs commands p es
    (walkEntries root) hnd hw]
  have hexne : ¬ isExcluded EXCLUDE_DIR exclude_dirs
      (((p, es).1).getLastD "") = true := by
    intro hh
    rw [hh] at hex
    cases hex
  rw [perEntryTasks, if_neg hexne]
  exact countP_tasksForDir commands p es

/-- Entries of the two-ecosystem demo project. -/
def demoMultiEntries : List FsEntry := [.file "Cargo.toml" 1, .file "go.mod" 1]

/-- Demo tree whose root matches two ecosystems at once. -/
def demoMultiTree : FsEntry := .dir "r" demoMultiEntries

/-- Demo registry with three ecosystems, two of which match. -/
def demoMultiCmds : List Cmd :=
  [⟨"cargo", ["Cargo.toml"]⟩, ⟨"go", ["go.mod"]⟩, ⟨"nodejs", ["package.json"]⟩]

/-- Witness for C9: a directory matching exactly two of three registered
ecosystems yields exactly two tasks. -/
theorem c9_witness :
    (cleaningTasks [] [] demoMultiCmds (some demoMultiTree)).countP
        (fun t => t.1 == ["r"]) =
      (demoMultiCmds.filter (fun c => cmdMatches c demoMultiEntries)).length ∧
    (demoMultiCmds.filter (fun c => cmdMatches c demoMultiEntries)).length = 2 := by
  constructor
  · exact c9_tasks_per_matching_ecosystem [] [] demoMultiCmds (some demoMultiTree)
      ["r"] demoMultiEntries (by decide) (List.Mem.head _) (by decide)
  · decide

/-- The well-known Node.js sub-paths of src/cmd.rs lines 109-117, in
source order. -/
def common_node_dirs : List String :=
  ["node_modules", "dist", "build", ".next", "out", "coverage", ".cache"]

/-- Embedding of `remove_dir_if_exists` (src/cmd.rs lines 126-134) for
one sub-path of the task directory.  The filesystem is abstracted by two
oracles: `present` says whether the sub-path exists, `failing` whether
the OS rejects its removal.  The second component records the removal
attempts actually issued (`fs::remove_dir_all` calls): none when the
path is absent, which is not an error. -/
def remove_dir_if_exists (present failing : String → Bool) (name : String) :
    Except CleanError Unit × List String :=
  if present name then
    if failing name then (.error (.directoryRemovalFailed name), [name])
    else (.ok (), [name])
  else (.ok (), [])

/-- The `for sub_dir_name in common_node_dirs` loop of
`clean_nodejs_project` (src/cmd.rs lines 119-122): each sub-path goes
through `remove_dir_if_exists` and the trailing `?` propagates the first
error immediately, abandoning the rest of the list.  The second
component accumulates the removal attempts issued. -/
def cleanKnownPaths (present failing : String → Bool) :
    List String → Except CleanError Unit × List String
  | [] => (.ok (), [])
  | d :: rest =>
    match remove_dir_if_exists present failing d with
    | (.error e, att) => (.error e, att)
    | (.ok _, att) =>
      let r := cleanKnownPaths present failing rest
      (r.1, att ++ r.2)

/-- Embedding of `clean_nodejs_project` (src/cmd.rs lines 108-124). -/
def clean_nodejs_project (present failing : String → Bool) :
    Except CleanError Unit × List String :=
  cleanKnownPaths present failing common_node_dirs

theorem cleanKnownPaths_cons_error (present failing : String → Bool)
    (d : String) (rest : List String) (e : CleanError) (att : List String)
    (h : remove_dir_if_exists present failing d = (.error e, att)) :
    cleanKnownPaths present failing (d :: rest) = (.error e, att) := by
  rw [cleanKnownPaths, h]

theorem cleanKnownPaths_cons_ok (present failing : String → Bool)
    (d : String) (rest : List String) (att : List String)
    (h : remove_dir_if_exists present failing d = (.ok (), att)) :
    cleanKnownPaths present failing (d :: rest) =
      ((cleanKnownPaths present failing rest).1,
        att ++ (cleanKnownPaths present failing rest).2) := by
  rw [cleanKnownPaths, h]

/-- When none of the listed sub-paths is present, the loop succeeds with
no removal attempt at all: absence is not an error. -/
theorem cleanKnownPaths_absent (present failing : String → Bool) :
    ∀ ds : List String, (∀ d ∈ ds, present d = false) →
      cleanKnownPaths present failing ds = (.ok (), []) := by
  intro ds
  induction ds with
  | nil => intro _; rfl
  | cons d rest ih =>
    intro h
    have hp : present d = false := h d (List.mem_cons_self d rest)
    have hpne : ¬ present d = true := by intro hh; rw [hh] at hp; cases hp
    have hrm : remove_dir_if_exists present failing d = (.ok (), []) := by
      rw [remove_dir_if_exists, if_neg hpne]
    rw [cleanKnownPaths_cons_ok present failing d rest [] hrm,
      ih (fun x hx => h x (List.mem_cons_of_mem d hx))]
    rfl

/-- An error exit of the loop splits the sub-path list at the first
present-and-failing entry: everything before it was processed (present
entries were removed), that entry's removal was attempted and reported,
and the entries after it were never touched. -/
theorem cleanKnownPaths_error_split (present failing : String → Bool) :
    ∀ (ds : List String) (e : CleanError) (atts : List String),
      cleanKnownPaths present failing ds = (.error e, atts) →
      ∃ pre d post, ds = pre ++ d :: post ∧
        present d = true ∧ failing d = true ∧
        (∀ x ∈ pre, ¬(present x = true ∧ failing x = true)) ∧
        atts = pre.filter (fun x => present x) ++ [d] := by
  intro ds
  induction ds with
  | nil =>
    intro e atts h
    rw [cleanKnownPaths] at h
    cases h
  | cons d rest ih =>
    intro e atts h
    by_cases hp : present d = true
    · by_cases hf : failing d = true
      · have hrm : remove_dir_if_exists present failing d =
            (.error (.directoryRemovalFailed d), [d]) := by
          rw [remove_dir_if_exists, if_pos hp, if_pos hf]
        rw [cleanKnownPaths_cons_error present failing d rest _ _ hrm] at h
        injection h with h1 h2
        refine ⟨[], d, rest, rfl, hp, hf, ?_, ?_⟩
        · intro x hx; cases hx
        · rw [← h2]; rfl
      · have hrm : remove_dir_if_exists present failing d = (.ok (), [d]) := by
          rw [remove_dir_if_exists, if_pos hp, if_neg hf]
        rw [cleanKnownPaths_cons_ok present failing d rest [d] hrm] at h
        injection h with h1 h2
        obtain ⟨pre, d', post, hds, hp', hf', hpre, hatts⟩ :=
          ih e (cleanKnownPaths present failing rest).2 (Prod.ext h1 rfl)
        refine ⟨d :: pre, d', post, by rw [hds]; rfl, hp', hf', ?_, ?_⟩
        · intro x hx
          rcases List.mem_cons.mp hx with rfl | hx'
          · intro hcon; exact hf hcon.2
          · exact hpre x hx'
        · rw [← h2, hatts, List.filter_cons, if_pos hp]
          rfl
    · have hrm : remove_dir_if_exists present failing d = (.ok (), []) := by
        rw [remove_dir_if_exists, if_neg hp]
      rw [cleanKnownPaths_cons_ok present failing d rest [] hrm] at h
      injection h with h1 h2
      obtain ⟨pre, d', post, hds, hp', hf', hpre, hatts⟩ :=
        ih e (cleanKnownPaths present failing rest).2 (Prod.ext h1 rfl)
      refine ⟨d :: pre, d', post, by rw [hds]; rfl, hp', hf', ?_, ?_⟩
      · intro x hx
        rcases List.mem_cons.mp hx with rfl | hx'
        · intro hcon; exact hp hcon.1
        · exact hpre x hx'
      · rw [← h2, List.nil_append, hatts, List.filter_cons, if_neg hp]

/-- Filesystem oracle for the C3 counterexample: `node_modules` and
`dist` are both present. -/
def presentNM : String → Bool := fun s => s == "node_modules" || s == "dist"

/-- Removal oracle for the C3 counterexample: removing `node_modules`
fails. -/
def failNM : String → Bool := fun s => s == "node_modules"

/-- C3: the claim that after one sub-path's removal fails the remaining
sub-paths are still attempted is false.  The `?` on
`remove_dir_if_exists` at src/cmd.rs line 121 returns from
`clean_nodejs_project` at the first error: with `node_modules` failing
and `dist` also present, the run reports Failed having attempted only
`node_modules`, and `dist` — although present and listed next — is never
attempted. -/
theorem c3_counterexample :
    (clean_nodejs_project presentNM failNM).1 =
      .error (.directoryRemovalFailed "node_modules") ∧
    (clean_nodejs_project presentNM failNM).2 = ["node_modules"] ∧
    presentNM "dist" = true ∧
    "dist" ∉ (clean_nodejs_project presentNM failNM).2 := by
  refine ⟨rfl, rfl, rfl, by decide⟩

/-- C3 (amended): absence of a listed sub-path is not an error (a run
over all-absent sub-paths succeeds attempting nothing), and when a
removal fails the task is reported as Failed, but the loop stops at the
first failure: the failing sub-path is the last attempt and no sub-path
listed after it is attempted. -/
theorem c3_amended_first_failure_stops (present failing : String → Bool) :
    ((∀ d ∈ common_node_dirs, present d = false) →
      clean_nodejs_project present failing = (.ok (), [])) ∧
    (∀ e atts, clean_nodejs_project present failing = (.error e, atts) →
      ∃ pre d post, common_node_dirs = pre ++ d :: post ∧
        present d = true ∧ failing d = true ∧
        atts = pre.filter (fun x => present x) ++ [d] ∧
        ∀ x ∈ post, x ∉ atts) := by
  constructor
  · intro h
    exact cleanKnownPaths_absent present failing common_node_dirs h
  · intro e atts h
    obtain ⟨pre, d, post, hds, hp, hf, _, hatts⟩ :=
      cleanKnownPaths_error_split present failing common_node_dirs e atts h
    refine ⟨pre, d, post, hds, hp, hf, hatts, ?_⟩
    intro x hx hmem
    have hnd : common_node_dirs.Nodup := by decide
    rw [hds] at hnd
    rw [hatts] at hmem
    rcases List.mem_append.mp hmem with hm | hm
    · have hxpre : x ∈ pre := List.mem_of_mem_filter hm
      exact (List.disjoint_of_nodup_append hnd) hxpre (List.mem_cons_of_mem d hx)
    · rw [List.mem_singleton] at hm
      subst hm
      have hnd2 := (List.nodup_append.mp hnd).2.1
      rw [List.nodup_cons] at hnd2
      exact hnd2.1 hx

/-- All-absent filesystem oracle. -/
def presentNone : String → Bool := fun _ => false

/-- Witness for C3 (amended) at the concrete oracles: the all-absent run
succeeds with no attempts, and the failing run splits the list at
`node_modules` with nothing after it attempted. -/
theorem c3_amended_witness :
    clean_nodejs_project presentNone failNM = (.ok (), []) ∧
    (∃ pre d post, common_node_dirs = pre ++ d :: post ∧
      presentNM d = true ∧ failNM d = true ∧
      (["node_modules"] : List String) = pre.filter (fun x => presentNM x) ++ [d] ∧
      ∀ x ∈ post, x ∉ (["node_modules"] : List String)) := by
  constructor
  · exact (c3_amended_first_failure_stops presentNone failNM).1 (fun d _ => rfl)
  · exact (c3_amended_first_failure_stops presentNM failNM).2
      (.directoryRemovalFailed "node_modules") ["node_modules"] rfl

/-- What the OS reports for a completed external process: its exit code
(the rest of `std::process::Output` is irrelevant here). -/
structure ProcessOutput where
  exitCode : Int

/-- Embedding of the default (external-command) branch of `run_clean`
(src/cmd.rs lines 86-104): `command.output().await` either yields an
`Output` — mapped to `Ok(())` with the exit status never inspected — or
an OS-level spawn/run error, mapped to `CommandExecutionFailed`. -/
def run_clean_external (cmd_name dir : String)
    (os_output : Except String ProcessOutput) : Except CleanError Unit :=
  match os_output with
  | .ok _ => .ok ()
  | .error _ => .error (.commandExecutionFailed (cmd_name ++ " clean") dir)

/-- C8: a RunExternalClean task fails exactly when the OS-level
spawn/run of the external command fails; the exit code is never
interpreted, so every completed launch+wait — whatever the exit code —
is a success. -/
theorem c8_failed_iff_spawn_failure (cmd_name dir : String)
    (os_output : Except String ProcessOutput) :
    ((∃ err, run_clean_external cmd_name dir os_output = .error err) ↔
      (∃ s, os_output = .error s)) ∧
    (∀ o1 o2 : ProcessOutput,
      run_clean_external cmd_name dir (.ok o1) =
        run_clean_external cmd_name dir (.ok o2)) ∧
    (∀ o : ProcessOutput, run_clean_external cmd_name dir (.ok o) = .ok ()) := by
  refine ⟨?_, fun o1 o2 => rfl, fun o => rfl⟩
  cases os_output with
  | ok o =>
    constructor
    · intro ⟨err, h⟩
      simp [run_clean_external] at h
    · intro ⟨s, h⟩
      cases h
  | error s =>
    constructor
    · intro _
      exact ⟨s, rfl⟩
    · intro _
      exact ⟨.commandExecutionFailed (cmd_name ++ " clean") dir, rfl⟩

/-- Embedding of `get_cpu_core_count` (src/lib.rs lines 65-69):
`available_parallelism().map(|n| n.get()).unwrap_or(4)`; the argument is
what the OS reports, `none` when the query fails. -/
def get_cpu_core_count (available_parallelism : Option Nat) : Nat :=
  available_parallelism.getD 4

/-- The `max_concurrent.unwrap_or_else(get_cpu_core_count)` default of
src/lib.rs line 126. -/
def max_concurrent_limit (max_concurrent available_parallelism : Option Nat) : Nat :=
  max_concurrent.getD (get_cpu_core_count available_parallelism)

/-- Status of one planned task in the two-phase scheduler of
`do_clean_all`: idle, holding a permit while its pre-size future runs,
measured with the recorded size-before, holding a permit while its
cleanup future runs, or finished. -/
inductive TaskStatus where
  | idle
  | measuring
  | measured (size_before : Nat)
  | cleaning (size_before : Nat)
  | done (size_before : Nat)
deriving DecidableEq

/-- Static data of one scheduler run: the semaphore capacity
(`max_concurrent_limit`), the task directories in plan order, the
filesystem at the start of the run, and an oracle for what each task's
external cleanup does to the filesystem when it completes. -/
structure SchedConfig where
  limit : Nat
  paths : List (List String)
  fs0 : Option FsEntry
  cleanEffect : Nat → Option FsEntry → Option FsEntry

/-- Dynamic state of a scheduler run: free semaphore permits, the status
of every task index, and the current filesystem. -/
structure SchedState where
  permits : Nat
  status : Nat → TaskStatus
  fs : Option FsEntry

/-- Phase-1 completion of one task: its pre-size measurement has
finished (it is measured, cleaning or done). -/
def MeasuredPlus : TaskStatus → Prop
  | .measured _ => True
  | .cleaning _ => True
  | .done _ => True
  | _ => False

/-- The task's recorded size-before is `sb`. -/
def HasSize (st : TaskStatus) (sb : Nat) : Prop :=
  st = .measured sb ∨ st = .cleaning sb ∨ st = .done sb

/-- Interleaving semantics of the two phases of `do_clean_all`
(src/lib.rs lines 126-203).  Each size future (lines 130-139) acquires
the shared semaphore, runs `get_dir_size_async` on the task's directory
against the current filesystem, and releases its permit.  Each cleanup
future (lines 152-200) can only start after `future::join_all` of ALL
size futures has completed (line 141) — the barrier hypothesis of
`startClean` — and acquires the same semaphore before running
`run_clean` and the post-size; its completion applies the task's effect
on the filesystem. -/
inductive SchedStep (cfg : SchedConfig) : SchedState → SchedState → Prop where
  | startMeasure (s : SchedState) (i : Nat) (hi : i < cfg.paths.length)
      (hst : s.status i = .idle) (hp : 0 < s.permits) :
      SchedStep cfg s
        ⟨s.permits - 1, Function.update s.status i .measuring, s.fs⟩
  | finishMeasure (s : SchedState) (i : Nat) (hst : s.status i = .measuring) :
      SchedStep cfg s
        ⟨s.permits + 1,
          Function.update s.status i
            (.measured (dirSizeAt s.fs (cfg.paths.getD i []))), s.fs⟩
  | startClean (s : SchedState) (i : Nat) (sb : Nat)
      (hst : s.status i = .measured sb)
      (hbar : ∀ j, j < cfg.paths.length → MeasuredPlus (s.status j))
      (hp : 0 < s.permits) :
      SchedStep cfg s
        ⟨s.permits - 1, Function.update s.status i (.cleaning sb), s.fs⟩
  | finishClean (s : SchedState) (i : Nat) (sb : Nat)
      (hst : s.status i = .cleaning sb) :
      SchedStep cfg s
        ⟨s.permits + 1, Function.update s.status i (.done sb),
          cfg.cleanEffect i s.fs⟩

/-- Start of a run: all permits free, every task idle, initial
filesystem. -/
def initState (cfg : SchedConfig) : SchedState :=
  ⟨cfg.limit, fun _ => .idle, cfg.fs0⟩

/-- States the scheduler can reach from the start of the run. -/
inductive Reachable (cfg : SchedConfig) : SchedState → Prop where
  | init : Reachable cfg (initState cfg)
  | step {s s' : SchedState} (h : Reachable cfg s) (hs : SchedStep cfg s s') :
      Reachable cfg s'

/-- Contribution of one task to the semaphore occupancy. -/
def activeBit : TaskStatus → Nat
  | .measuring => 1
  | .cleaning _ => 1
  | _ => 0

/-- Number of planned tasks currently holding a semaphore permit. -/
def holdersF (n : Nat) (st : Nat → TaskStatus) : Nat :=
  ∑ j ∈ Finset.range n, activeBit (st j)

/-- Number of tasks of the run currently holding a semaphore permit. -/
def holders (cfg : SchedConfig) (s : SchedState) : Nat :=
  holdersF cfg.paths.length s.status

theorem holdersF_update (n : Nat) (st : Nat → TaskStatus) (i : Nat) (hi : i < n)
    (v : TaskStatus) :
    holdersF n (Function.update st i v) + activeBit (st i) =
      holdersF n st + activeBit v := by
  have hmem : i ∈ Finset.range n := Finset.mem_range.mpr hi
  have h1 : holdersF n (Function.update st i v) =
      ∑ j ∈ Finset.range n,
        Function.update (fun j => activeBit (st j)) i (activeBit v) j := by
    apply Finset.sum_congr rfl
    intro j _
    by_cases hj : j = i
    · subst hj; simp [Function.update]
    · simp [Function.update, hj]
  rw [h1, Finset.sum_update_of_mem hmem, holdersF,
    Finset.sum_eq_add_sum_diff_singleton hmem (fun j => activeBit (st j))]
  omega

/-- Run invariant: (1) only planned task indices ever leave idle; (2)
free permits plus permit holders always equal the semaphore capacity;
(3) once any task is cleaning or done, the pre-size phase is complete
for every planned task (the join_all barrier); (4) the filesystem is
still the initial one until the pre-size phase is complete; (5) every
recorded size-before is the measurement of the task's directory against
the initial filesystem. -/
def SchedInv (cfg : SchedConfig) (s : SchedState) : Prop :=
  (∀ i, cfg.paths.length ≤ i → s.status i = .idle) ∧
  s.permits + holders cfg s = cfg.limit ∧
  ((∃ i sb, s.status i = .cleaning sb ∨ s.status i = .done sb) →
    ∀ j, j < cfg.paths.length → MeasuredPlus (s.status j)) ∧
  (s.fs = cfg.fs0 ∨ ∀ j, j < cfg.paths.length → MeasuredPlus (s.status j)) ∧
  (∀ i sb, HasSize (s.status i) sb → sb = dirSizeAt cfg.fs0 (cfg.paths.getD i []))

theorem sched_inv (cfg : SchedConfig) (s : SchedState) (hr : Reachable cfg s) :
    SchedInv cfg s := by
  induction hr with
  | init =>
    refine ⟨fun i _ => rfl, ?_, ?_, Or.inl rfl, ?_⟩
    · have h0 : holders cfg (initState cfg) = 0 := by
        simp [holders, holdersF, initState, activeBit]
      rw [h0]
      simp [initState]
    · intro ⟨i, sb, hor⟩
      rcases hor with h | h <;> cases h
    · intro i sb hhs
      rcases hhs with h | h | h <;> cases h
  | step hr0 hs ih =>
    rename_i sp sq
    obtain ⟨ihLen, ihSem, ihBar, ihFs, ihSize⟩ := ih
    cases hs with
    | startMeasure i hi hst hp =>
      simp only [SchedInv]
      refine ⟨?_, ?_, ?_, ?_, ?_⟩
      · intro k hk
        rw [Function.update_noteq (by omega)]
        exact ihLen k hk
      · have hupd := holdersF_update cfg.paths.length sp.status i hi .measuring
        rw [hst] at hupd
        simp only [activeBit] at hupd
        simp only [holders] at ihSem ⊢
        omega
      · intro ⟨i', sb', hor⟩
        by_cases hii : i' = i
        · subst hii
          rw [Function.update_same] at hor
          rcases hor with h | h <;> cases h
        · rw [Function.update_noteq hii] at hor
          have hall := ihBar ⟨i', sb', hor⟩
          have hmi := hall i hi
          rw [hst] at hmi
          exact False.elim hmi
      · rcases ihFs with hfs | hall
        · exact Or.inl hfs
        · have hmi := hall i hi
          rw [hst] at hmi
          exact False.elim hmi
      · intro i' sb' hhs
        by_cases hii : i' = i
        · subst hii
          rw [Function.update_same] at hhs
          rcases hhs with h | h | h <;> cases h
        · rw [Function.update_noteq hii] at hhs
          exact ihSize i' sb' hhs
    | finishMeasure i hst =>
      have hilen : i < cfg.paths.length := by
        by_contra hc
        push_neg at hc
        rw [ihLen i hc] at hst
        cases hst
      have hfs0 : sp.fs = cfg.fs0 := by
        rcases ihFs with hfs | hall
        · exact hfs
        · have hmi := hall i hilen
          rw [hst] at hmi
          exact False.elim hmi
      simp only [SchedInv]
      refine ⟨?_, ?_, ?_, ?_, ?_⟩
      · intro k hk
        rw [Function.update_noteq (by omega)]
        exact ihLen k hk
      · have hupd := holdersF_update cfg.paths.length sp.status i hilen
          (.measured (dirSizeAt sp.fs (cfg.paths.getD i [])))
        rw [hst] at hupd
        simp only [activeBit] at hupd
        simp only [holders] at ihSem ⊢
        omega
      · intro ⟨i', sb', hor⟩
        by_cases hii : i' = i
        · subst hii
          rw [Function.update_same] at hor
          rcases hor with h | h <;> cases h
        · rw [Function.update_noteq hii] at hor
          have hall := ihBar ⟨i', sb', hor⟩
          intro j hj
          by_cases hji : j = i
          · subst hji
            rw [Function.update_same]
            trivial
          · rw [Function.update_noteq hji]
            exact hall j hj
      · rcases ihFs with hfs | hall
        · exact Or.inl hfs
        · refine Or.inr (fun j hj => ?_)
          by_cases hji : j = i
          · subst hji
            rw [Function.update_same]
            trivial
          · rw [Function.update_noteq hji]
            exact hall j hj
      · intro i' sb' hhs
        by_cases hii : i' = i
        · subst hii
          rw [Function.update_same] at hhs
          rcases hhs with h | h | h
          · injection h with h'
            rw [← h', hfs0]
          · cases h
          · cases h
        · rw [Function.update_noteq hii] at hhs
          exact ihSize i' sb' hhs
    | startClean i sb hst hbar hp =>
      have hilen : i < cfg.paths.length := by
        by_contra hc
        push_neg at hc
        rw [ihLen i hc] at hst
        cases hst
      simp only [SchedInv]
      refine ⟨?_, ?_, ?_, ?_, ?_⟩
      · intro k hk
        rw [Function.update_noteq (by omega)]
        exact ihLen k hk
      · have hupd := holdersF_update cfg.paths.length sp.status i hilen (.cleaning sb)
        rw [hst] at hupd
        simp only [activeBit] at hupd
        simp only [holders] at ihSem ⊢
        omega
      · intro _
        intro j hj
        by_cases hji : j = i
        · subst hji
          rw [Function.update_same]
          trivial
        · rw [Function.update_noteq hji]
          exact hbar j hj
      · refine Or.inr (fun j hj => ?_)
        by_cases hji : j = i
        · subst hji
          rw [Function.update_same]
          trivial
        · rw [Function.update_noteq hji]
          exact hbar j hj
      · intro i' sb' hhs
        by_cases hii : i' = i
        · subst hii
          rw [Function.update_same] at hhs
          rcases hhs with h | h | h
          · cases h
          · injection h with h'
            rw [← h']
            exact ihSize i' sb (Or.inl hst)
          · cases h
        · rw [Function.update_noteq hii] at hhs
          exact ihSize i' sb' hhs
    | finishClean i sb hst =>
      have hilen : i < cfg.paths.length := by
        by_contra hc
        push_neg at hc
        rw [ihLen i hc] at hst
        cases hst
      have hall := ihBar ⟨i, sb, Or.inl hst⟩
      simp only [SchedInv]
      refine ⟨?_, ?_, ?_, ?_, ?_⟩
      · intro k hk
        rw [Function.update_noteq (by omega)]
        exact ihLen k hk
      · have hupd := holdersF_update cfg.paths.length sp.status i hilen (.done sb)
        rw [hst] at hupd
        simp only [activeBit] at hupd
        simp only [holders] at ihSem ⊢
        omega
      · intro _
        intro j hj
        by_cases hji : j = i
        · subst hji
          rw [Function.update_same]
          trivial
        · rw [Function.update_noteq hji]
          exact hall j hj
      · refine Or.inr (fun j hj => ?_)
        by_cases hji : j = i
        · subst hji
          rw [Function.update_same]
          trivial
        · rw [Function.update_noteq hji]
          exact hall j hj
      · intro i' sb' hhs
        by_cases hii : i' = i
        · subst hii
          rw [Function.update_same] at hhs
          rcases hhs with h | h | h
          · cases h
          · cases h
          · injection h with h'
            rw [← h']
            exact ihSize i' sb (Or.inr (Or.inl hst))
        · rw [Function.update_noteq hii] at hhs
          exact ihSize i' sb' hhs

/-- C6: in every reachable scheduler state, (a) if any task has begun
(or finished) its cleanup then the pre-size measurement has completed
for every planned task — the `future::join_all(size_futures)` of
src/lib.rs line 141 is a barrier between the two phases — and (b) every
recorded size-before equals `get_dir_size_async` of the task's directory
in the initial filesystem, i.e. the state prior to any cleanup. -/
theorem c6_presize_before_any_cleanup (cfg : SchedConfig) (s : SchedState)
    (hr : Reachable cfg s) :
    ((∃ i sb, s.status i = .cleaning sb ∨ s.status i = .done sb) →
      ∀ j, j < cfg.paths.length → MeasuredPlus (s.status j)) ∧
    (∀ i sb, HasSize (s.status i) sb →
      sb = dirSizeAt cfg.fs0 (cfg.paths.getD i [])) := by
  have h := sched_inv cfg s hr
  exact ⟨h.2.2.1, h.2.2.2.2⟩

/-- C7: in every reachable scheduler state the number of tasks holding
the semaphore never exceeds its capacity (for any capacity, in
particular any configured N ≥ 1), and when no `max_concurrent` is
configured the capacity defaults to the reported number of available
processing units (src/lib.rs lines 64-69 and 126). -/
theorem c7_concurrency_bound :
    (∀ (cfg : SchedConfig) (s : SchedState), Reachable cfg s →
      holders cfg s ≤ cfg.limit) ∧
    (∀ avail : Nat, max_concurrent_limit none (some avail) = avail) ∧
    (∀ (n : Nat) (avail : Option Nat), max_concurrent_limit (some n) avail = n) := by
  refine ⟨?_, fun avail => rfl, fun n avail => rfl⟩
  intro cfg s hr
  have h := (sched_inv cfg s hr).2.1
  omega

/-- Concrete one-task scheduler configuration for the witnesses. -/
def wCfg : SchedConfig := ⟨1, [["r"]], some demoCargoTree, fun _ fs => fs⟩

/-- State after the single task acquired the permit for measuring. -/
def wS1 : SchedState :=
  ⟨(initState wCfg).permits - 1,
    Function.update (initState wCfg).status 0 .measuring, (initState wCfg).fs⟩

/-- The size recorded when the measurement finishes. -/
def wSize : Nat := dirSizeAt wS1.fs (wCfg.paths.getD 0 [])

/-- State after the measurement finished. -/
def wS2 : SchedState :=
  ⟨wS1.permits + 1, Function.update wS1.status 0 (.measured wSize), wS1.fs⟩

/-- State after the task acquired the permit for cleaning. -/
def wS3 : SchedState :=
  ⟨wS2.permits - 1, Function.update wS2.status 0 (.cleaning wSize), wS2.fs⟩

theorem wS3_reachable : Reachable wCfg wS3 := by
  have h1 : Reachable wCfg wS1 :=
    Reachable.step Reachable.init
      (SchedStep.startMeasure (initState wCfg) 0 (by decide) rfl (by decide))
  have h2 : Reachable wCfg wS2 :=
    Reachable.step h1 (SchedStep.finishMeasure wS1 0 rfl)
  refine Reachable.step h2 (SchedStep.startClean wS2 0 wSize rfl ?_ (by decide))
  intro j hj
  have hj0 : j = 0 := by
    have hl : wCfg.paths.length = 1 := rfl
    omega
  subst hj0
  trivial

/-- Witness for C6: in the concrete reachable state `wS3` the task is
cleaning, phase 1 is complete for it, and its recorded size-before is
the initial-filesystem measurement. -/
theorem c6_witness :
    MeasuredPlus (wS3.status 0) ∧
    wSize = dirSizeAt wCfg.fs0 (wCfg.paths.getD 0 []) := by
  have h := c6_presize_before_any_cleanup wCfg wS3 wS3_reachable
  exact ⟨h.1 ⟨0, wSize, Or.inl rfl⟩ 0 (by decide),
    h.2 0 wSize (Or.inr (Or.inl rfl))⟩

/-- Witness for C7: the bound holds in the initial state of the
concrete configuration, and the default limit equals the reported
processor count. -/
theorem c7_witness :
    holders wCfg (initState wCfg) ≤ wCfg.limit ∧
    max_concurrent_limit none (some 8) = 8 := by
  exact ⟨c7_concurrency_bound.1 wCfg (initState wCfg) Reachable.init,
    c7_concurrency_bound.2.1 8⟩
